import Mathlib

/-!
# Verification of the ContractCompiler import resolver and compile cache

This development embeds the `ContractCompiler` class (compiler.ts) in Lean:
the Node `path` operations it uses, the regex-based import scanner, the
recursive import resolver `resolveAllImports`, and the cache facade
`compileContract` / `getContract` / `getCacheKeys` / `clearCache`.

Paths are POSIX strings; the filesystem is a finite association list from
absolute path to file contents; the external solc compiler is an abstract
function from the resolved sources mapping to a structured output.
The resolver recursion is modelled with explicit fuel; a fuel-sufficiency
theorem shows the recursion never exhausts `fs.length + 1` fuel, which is
the termination argument of the original unbounded recursion.
-/

namespace McpCompiler

/-! ## Node `path` model (posix) -/

/-- Split a character list on a separator character, JS `s.split(sep)` style:
`"a/b"` gives `[[a],[b]]`, `""` gives `[[]]`. -/
def splitOnChar (sep : Char) : List Char → List (List Char)
  | [] => [[]]
  | c :: rest =>
    if c = sep then [] :: splitOnChar sep rest
    else
      match splitOnChar sep rest with
      | [] => [[c]]
      | g :: gs => (c :: g) :: gs

/-- Path segments of a string: split on `/` and drop empty segments
(this is how Node treats repeated or trailing separators in a path). -/
def segsOf (s : String) : List (List Char) :=
  (splitOnChar '/' s.data).filter (fun g => g ≠ [])

/-- Interpret a relative specifier against base segments, the segment loop of
Node `path.resolve`: `.` is dropped, `..` pops, anything else is pushed. -/
def resolveSegs (base : List (List Char)) (sp : String) : List (List Char) :=
  (segsOf sp).foldl
    (fun acc seg =>
      if seg = ['.'] then acc
      else if seg = ['.', '.'] then acc.dropLast
      else acc ++ [seg])
    base

/-- Join segments with `/` separators. -/
def joinSegs : List (List Char) → List Char
  | [] => []
  | [g] => g
  | g :: g2 :: rest => g ++ '/' :: joinSegs (g2 :: rest)

/-- Join absolute path segments back into a string: `/` ++ segments. -/
def joinAbs (segs : List (List Char)) : String :=
  String.mk ('/' :: joinSegs segs)

/-- `b.data` is a list prefix of `a.data`; behaviour of JS `a.startsWith(b)`. -/
def strStartsWith (a b : String) : Bool :=
  b.data.isPrefixOf a.data

/-- Drop the first `n` characters of a string, JS `s.slice(n)` for our uses. -/
def strDrop (s : String) (n : Nat) : String :=
  String.mk (s.data.drop n)

/-- Node `path.resolve(base, sp)` for an absolute normalized `base`:
an absolute `sp` ignores the base, otherwise `sp` is resolved against it. -/
def resolveStr (base : String) (sp : String) : String :=
  if strStartsWith sp "/" then joinAbs (resolveSegs [] sp)
  else joinAbs (resolveSegs (segsOf base) sp)

/-- Node `path.dirname` on an absolute path: drop the last segment. -/
def dirnameStr (p : String) : String :=
  joinAbs (segsOf p).dropLast

/-- Node `path.basename(p, ext)`: the last path segment, with `ext` stripped
when it is a proper suffix of that segment. -/
def basenameExt (p ext : String) : String :=
  let last := ((segsOf p).getLast?).getD []
  if last ≠ ext.data ∧ ext.data.isSuffixOf last then
    String.mk (last.take (last.length - ext.data.length))
  else String.mk last

/-- Drop the longest common prefix of two segment lists. -/
def dropCommon : List (List Char) → List (List Char) → List (List Char) × List (List Char)
  | a :: as, b :: bs => if a = b then dropCommon as bs else (a :: as, b :: bs)
  | as, bs => (as, bs)

/-- Node `path.relative(src, dst)` on absolute normalized paths: drop the
common prefix, one `..` per remaining source segment, then the rest of the
destination. -/
def relativeStr (src dst : String) : String :=
  let p := dropCommon (segsOf src) (segsOf dst)
  String.mk (joinSegs (p.1.map (fun _ => ['.', '.']) ++ p.2))

/-- Remainder of `cs` after the first occurrence of `sub`, `none` when `sub`
does not occur (for nonempty `sub`). -/
def dropUntilSub (sub : List Char) : List Char → Option (List Char)
  | [] => if sub = [] then some [] else none
  | c :: rest =>
    if sub.isPrefixOf (c :: rest) then some ((c :: rest).drop sub.length)
    else dropUntilSub sub rest

/-- Characters of `cs` before the first occurrence of `sub` (all of `cs` when
`sub` does not occur). -/
def takeUntilSub (sub : List Char) : List Char → List Char
  | [] => []
  | c :: rest =>
    if sub.isPrefixOf (c :: rest) then []
    else c :: takeUntilSub sub rest

/-- JS `s.includes(sub)`. -/
def strIncludes (s sub : String) : Bool :=
  (dropUntilSub sub.data s.data).isSome

/-- JS `s.split(sub)[1]`: the part between the end of the first occurrence of
`sub` and the next occurrence (or the end). Only used under a guard that the
occurrence exists. -/
def jsSplitSecond (s sub : String) : String :=
  match dropUntilSub sub.data s.data with
  | some rest => String.mk (takeUntilSub sub.data rest)
  | none => ""

/-- JS `s.replace(/\\/g, '/')`: turn every backslash into a forward slash. -/
def strMapSlash (s : String) : String :=
  String.mk (s.data.map (fun c => if c = '\\' then '/' else c))

/-! ## Import statement scanner

The source scans each file with the global regex
`import\s+.*?from\s+["']([^"']+)["'];|import\s+["']([^"']+)["'];`
collecting the captured specifier of each successive leftmost match.
The functions below implement that scan directly: a match starts at an
occurrence of the literal `import`, followed by whitespace and either the
`... from "spec";` form (the lazy gap may not cross a line terminator) or
the bare `"spec";` form, quotes being `"` or the single quote, and the
captured specifier being one or more characters that are not quotes. -/

/-- JS `\s` for the characters that occur in source files. -/
def isWS (c : Char) : Bool :=
  c = ' ' || c = '\t' || c = '\n' || c = '\r' || c = '\x0b' || c = '\x0c'

/-- Quote characters accepted by the import regex character class. -/
def isQuote (c : Char) : Bool :=
  c = '"' || c.toNat = 39

/-- Match `["']([^"']+)["'];` at the head of `cs`: opening quote, a nonempty
run of non-quote characters (the captured specifier), a closing quote and a
semicolon. Returns the specifier and the number of characters consumed. -/
def quotedSpec : List Char → Option (String × Nat)
  | [] => none
  | c :: rest =>
    if isQuote c then
      let spec := rest.takeWhile (fun d => !isQuote d)
      if spec = [] then none
      else
        match rest.drop spec.length with
        | q :: ';' :: _ =>
          if isQuote q then some (String.mk spec, spec.length + 3) else none
        | _ => none
    else none

/-- Match `from\s+["']([^"']+)["'];` at the head of `cs`. -/
def fromTail (cs : List Char) : Option (String × Nat) :=
  match cs with
  | 'f' :: 'r' :: 'o' :: 'm' :: rest =>
    let w := (rest.takeWhile isWS).length
    if w = 0 then none
    else
      match quotedSpec (rest.drop w) with
      | some (s, n) => some (s, 4 + w + n)
      | none => none
  | _ => none

/-- The lazy gap `.*?` followed by `from\s+["']([^"']+)["'];`: try the tail at
each position, moving right one character at a time; the dot of the regex does
not match a line terminator, so the gap stops at a newline. -/
def lazyFromScan : List Char → Option (String × Nat)
  | [] => none
  | c :: rest =>
    match fromTail (c :: rest) with
    | some r => some r
    | none =>
      if c = '\n' || c = '\r' then none
      else
        match lazyFromScan rest with
        | some (s, n) => some (s, n + 1)
        | none => none

/-- Match the part of either regex alternative that follows the literal
`import`: mandatory whitespace, then the `from` form (first alternative,
tried first) or the bare quoted form. -/
def importTail (cs : List Char) : Option (String × Nat) :=
  let w := (cs.takeWhile isWS).length
  if w = 0 then none
  else
    match lazyFromScan (cs.drop w) with
    | some (s, n) => some (s, w + n)
    | none =>
      match quotedSpec (cs.drop w) with
      | some (s, n) => some (s, w + n)
      | none => none

/-- The `regex.exec` loop: find each successive leftmost match, collect its
captured specifier, and continue after the end of the match. The `fuel`
argument makes the recursion structural; `scanImports` instantiates it with
the length of the input, which the scan can never exhaust since every step
consumes at least one character. -/
def scanAux : Nat → List Char → List String
  | _, [] => []
  | 0, _ :: _ => []
  | fuel + 1, c :: rest =>
    if (c :: rest).take 6 = ['i', 'm', 'p', 'o', 'r', 't'] then
      match importTail ((c :: rest).drop 6) with
      | some (s, n) => s :: scanAux fuel ((c :: rest).drop (6 + n))
      | none => scanAux fuel rest
    else scanAux fuel rest

/-- All import specifiers of a source text, in order of occurrence. -/
def scanImports (source : String) : List String :=
  scanAux source.data.length source.data

/-! ## The import resolver -/

/-- The two directories computed in the `ContractCompiler` constructor:
`contractsDir` (the templates root `src/contracts`) and `ozContractsDir`
(the installed `node_modules/@openzeppelin/contracts` tree). -/
structure CompilerCfg where
  contractsDir : String
  ozContractsDir : String
deriving DecidableEq, Repr

/-- A filesystem: association list from absolute path to file contents. -/
abbrev FS := List (String × String)

/-- `fs.readFile(p)` as a partial lookup. -/
def readFS (fs : FS) (p : String) : Option String :=
  (fs.find? (fun e => e.1 == p)).map (fun e => e.2)

/-- JS object-property assignment `m[k] = v` on a string-keyed object: an
existing key keeps its position and gets the new value, a new key is appended
in insertion order. -/
def objInsert {α : Type} (m : List (String × α)) (k : String) (v : α) :
    List (String × α) :=
  if k ∈ m.map (fun e => e.1) then
    m.map (fun e => if e.1 = k then (k, v) else e)
  else m ++ [(k, v)]

/-- JS object-property read `m[k]`. -/
def objFind? {α : Type} (m : List (String × α)) (k : String) : Option α :=
  (m.find? (fun e => e.1 == k)).map (fun e => e.2)

/-- The literal namespace prefix checked by `findImports`. -/
def ozPfx : String := "@openzeppelin/contracts/"

/-- The literal substring used for the node-modules check when deriving a
source key from a resolved path. -/
def ozMagic : String := "node_modules/@openzeppelin/contracts/"

/-- The path computation of `findImports(importPath, basePath)`, also
duplicated verbatim by `resolveAllImports` for the recursive call: a specifier
starting with the `@openzeppelin/contracts/` prefix is stripped and joined
with the library root; a specifier starting with `./` or `../` is joined with
the directory of the importing file when known, else with the templates root;
anything else is joined with the templates root. -/
def resolveImportPath (cfg : CompilerCfg) (importPath : String)
    (basePath : Option String) : String :=
  if strStartsWith importPath ozPfx then
    resolveStr cfg.ozContractsDir (strDrop importPath ozPfx.length)
  else if strStartsWith importPath "./" || strStartsWith importPath "../" then
    match basePath with
    | some b => resolveStr (dirnameStr b) importPath
    | none => resolveStr cfg.contractsDir importPath
  else resolveStr cfg.contractsDir importPath

/-- `findImports`: resolve the specifier to a path and read it; a read
failure becomes the `Import not found` error (the catch branch). -/
def findImports (fs : FS) (cfg : CompilerCfg) (importPath : String)
    (basePath : Option String) : Except String String :=
  match readFS fs (resolveImportPath cfg importPath basePath) with
  | some contents => Except.ok contents
  | none => Except.error ("Import not found: " ++ importPath)

/-- The source-key derivation for an import found in `filePath`, from the
body of `resolveAllImports`: an `@openzeppelin/contracts/` specifier is its
own key; a relative specifier is resolved, keyed by the namespace prefix plus
the part after `node_modules/@openzeppelin/contracts/` when the resolved path
contains that substring, and by the path relative to the templates root
otherwise; any other specifier is its own key. -/
def importSourceKey (cfg : CompilerCfg) (importPath filePath : String) :
    String :=
  if strStartsWith importPath ozPfx then importPath
  else if strStartsWith importPath "./" || strStartsWith importPath "../" then
    let resolvedPath := resolveStr (dirnameStr filePath) importPath
    if strIncludes resolvedPath ozMagic then
      ozPfx ++ strMapSlash (jsSplitSecond resolvedPath ozMagic)
    else strMapSlash (relativeStr cfg.contractsDir resolvedPath)
  else importPath

/-- The state threaded through `processFile`: the `sources` object being
built, the `processedPaths` set, and the arguments of each `console.warn`
call emitted for an unresolvable import (specifier, referencing file). -/
structure RState where
  sources : List (String × String)
  processed : List String
  warnings : List (String × String)
deriving DecidableEq, Repr

/-- The inner `processFile(source, filePath, sourceKey)` of
`resolveAllImports`: return if the path was already processed, otherwise mark
it processed, record the source under its key, and walk the scanned imports
in order — an import that fails to read is logged and skipped, a readable one
is recursively processed at its resolved path under its derived key.
`fuel` bounds the recursion depth; the original code recurses unboundedly,
and the fuel-sufficiency theorem below shows `fs.length + 1` is never
exhausted. -/
def processFile (fs : FS) (cfg : CompilerCfg) :
    Nat → RState → String → String → String → Option RState
  | 0, st, _, filePath, _ =>
    if filePath ∈ st.processed then some st else none
  | fuel + 1, st, source, filePath, sourceKey =>
    if filePath ∈ st.processed then some st
    else
      let st1 : RState :=
        { st with
          processed := filePath :: st.processed
          sources := objInsert st.sources sourceKey source }
      (scanImports source).foldl
        (fun acc ip =>
          match acc with
          | none => none
          | some st2 =>
            match findImports fs cfg ip (some filePath) with
            | Except.error _ =>
              some { st2 with warnings := st2.warnings ++ [(ip, filePath)] }
            | Except.ok contents =>
              processFile fs cfg fuel st2 contents
                (resolveImportPath cfg ip (some filePath))
                (importSourceKey cfg ip filePath))
        (some st1)

/-- The per-import step of the `processFile` loop, named for the lemmas. -/
def importStep (fs : FS) (cfg : CompilerCfg) (fuel : Nat) (filePath : String)
    (acc : Option RState) (ip : String) : Option RState :=
  match acc with
  | none => none
  | some st2 =>
    match findImports fs cfg ip (some filePath) with
    | Except.error _ =>
      some { st2 with warnings := st2.warnings ++ [(ip, filePath)] }
    | Except.ok contents =>
      processFile fs cfg fuel st2 contents
        (resolveImportPath cfg ip (some filePath))
        (importSourceKey cfg ip filePath)

/-- `resolveAllImports(contractSource, contractPath)` with explicit fuel:
start from empty state at the root, whose source key is the basename of the
root path with `.sol` stripped. -/
def resolveAllImportsFuel (fs : FS) (cfg : CompilerCfg) (fuel : Nat)
    (contractSource contractPath : String) : Option RState :=
  processFile fs cfg fuel ⟨[], [], []⟩ contractSource contractPath
    (basenameExt contractPath ".sol")

/-- `resolveAllImports`: the sources object of a run with sufficient fuel
(the fuel-sufficiency theorem below shows the default branch is never
taken). -/
def resolveAllImports (fs : FS) (cfg : CompilerCfg)
    (contractSource contractPath : String) : List (String × String) :=
  match resolveAllImportsFuel fs cfg (fs.length + 1)
      contractSource contractPath with
  | some st => st.sources
  | none => []

/-! ## The compile cache facade

The external `solc.compile` round-trip is abstracted as a function from the
resolved sources mapping to a structured output; the compiler settings the
source passes are constant, so the sources mapping is the whole varying
input. `compileContract` returns the result, the updated cache, and the
number of compiler invocations the call performed (0 or 1), which models
instrumenting the external compiler with an invocation counter. -/

/-- One entry of `output.errors`. -/
structure Diagnostic where
  severity : String
  message : String
deriving DecidableEq, Repr

/-- One contract object of `output.contracts[sourceKey]`. -/
structure SolcContract where
  abi : List String
  bytecodeObject : String
  metadata : String
deriving DecidableEq, Repr

/-- The parsed `solc.compile` output: the optional `errors` array and the
`contracts` object (source key to contract-name-keyed object). -/
structure SolcOutput where
  errors : Option (List Diagnostic)
  contracts : List (String × List (String × SolcContract))
deriving DecidableEq, Repr

/-- The `CompiledContract` interface. -/
structure CompiledContract where
  bytecode : String
  abi : List String
  metadata : String
deriving DecidableEq, Repr

/-- The compilation cache: contract name to compiled artifact, in insertion
order (a JS object with string keys). -/
abbrev Cache := List (String × CompiledContract)

/-- The failures `compileContract` can raise: the entry file read failing
(the rejected `fs.readFile` promise), the `Compilation errors:` throw
carrying the severity-error diagnostics, and the TypeError raised when the
output lacks the expected contract object. -/
inductive CompileFailure where
  | readError : String → CompileFailure
  | compilationErrors : List Diagnostic → CompileFailure
  | extractionError : CompileFailure
deriving DecidableEq, Repr

/-- `compileContract(contractPath)`: derive the cache key as the basename of
the path with `.sol` stripped; return a cached artifact at once; otherwise
read the entry file, resolve all imports, invoke the compiler, throw when it
reports severity-`error` diagnostics, extract the first contract of the
output object keyed by the contract name, cache it and return it. The third
component counts compiler invocations performed by the call. -/
def compileContract (fs : FS) (cfg : CompilerCfg)
    (solc : List (String × String) → SolcOutput) (cache : Cache)
    (contractPath : String) :
    Except CompileFailure CompiledContract × Cache × Nat :=
  let contractName := basenameExt contractPath ".sol"
  match objFind? cache contractName with
  | some c => (Except.ok c, cache, 0)
  | none =>
    match readFS fs contractPath with
    | none => (Except.error (CompileFailure.readError contractPath), cache, 0)
    | some source =>
      let allSources := resolveAllImports fs cfg source contractPath
      let output := solc allSources
      let fatal :=
        match output.errors with
        | some errs => errs.filter (fun d => d.severity == "error")
        | none => []
      if fatal ≠ [] then
        (Except.error (CompileFailure.compilationErrors fatal), cache, 1)
      else
        match objFind? output.contracts contractName with
        | none => (Except.error CompileFailure.extractionError, cache, 1)
        | some contracts =>
          match contracts with
          | [] => (Except.error CompileFailure.extractionError, cache, 1)
          | (_, c) :: _ =>
            let compiled : CompiledContract :=
              ⟨c.bytecodeObject, c.abi, c.metadata⟩
            (Except.ok compiled, objInsert cache contractName compiled, 1)

/-- `getContract(contractName)`: resolve `{name}.sol` under the templates
root and compile it. -/
def getContract (fs : FS) (cfg : CompilerCfg)
    (solc : List (String × String) → SolcOutput) (cache : Cache)
    (contractName : String) :
    Except CompileFailure CompiledContract × Cache × Nat :=
  compileContract fs cfg solc cache
    (resolveStr cfg.contractsDir (contractName ++ ".sol"))

/-- The cache key `getContract name` stores and looks up: the basename of
the resolved entry path with `.sol` stripped. -/
def cacheKeyOf (cfg : CompilerCfg) (contractName : String) : String :=
  basenameExt (resolveStr cfg.contractsDir (contractName ++ ".sol")) ".sol"

/-- `getCacheKeys()`: the cached contract names in insertion order. -/
def getCacheKeys (cache : Cache) : List String :=
  cache.map (fun e => e.1)

/-- `clearCache()`: the cache after clearing. -/
def clearCache : Cache := []

instance {ε α : Type} [DecidableEq ε] [DecidableEq α] :
    DecidableEq (Except ε α) := fun x y =>
  match x, y with
  | Except.ok a, Except.ok b =>
    if h : a = b then isTrue (by rw [h])
    else isFalse (fun hc => h (by injection hc))
  | Except.error a, Except.error b =>
    if h : a = b then isTrue (by rw [h])
    else isFalse (fun hc => h (by injection hc))
  | Except.ok _, Except.error _ => isFalse (fun hc => Except.noConfusion hc)
  | Except.error _, Except.ok _ => isFalse (fun hc => Except.noConfusion hc)

/-- Paths of a filesystem not yet in the processed list, counted once each:
the termination measure of the resolver recursion. -/
def unprocCount (fs : FS) (l : List String) : Nat :=
  (((fs.map (fun e => e.1)).dedup).filter (fun p => decide (p ∉ l))).length

/-! ## Fixtures for the concrete scenarios of the claims -/

/-- A configuration with templates root `/t`. -/
def cfgT : CompilerCfg := ⟨"/t", "/n/node_modules/@openzeppelin/contracts"⟩

/-- Root source of the two-cycle: A imports B. -/
def srcCycA : String := "import \"./B.sol\";"

/-- Second source of the two-cycle: B imports A back. -/
def srcCycB : String := "import \"./A.sol\";"

/-- Filesystem of the A-imports-B-imports-A cycle. -/
def fsCyc : FS := [("/t/A.sol", srcCycA), ("/t/B.sol", srcCycB)]

/-- Root source of the key-collision tree: a bare import `A`. -/
def srcColl : String := "import \"A\";"

/-- Filesystem of the key-collision tree: the root `/t/A.sol` (source key
`A`, its basename) and a distinct on-disk file `/t/A` whose bare-import
source key is also `A`. -/
def fsColl : FS := [("/t/A.sol", srcColl), ("/t/A", "contract AImpl")]

/-- Root of the diamond: R imports A and B. -/
def srcDiaR : String := "import \"./A.sol\";\nimport \"./B.sol\";"

/-- Left side of the diamond: A imports C. -/
def srcDiaA : String := "import \"./C.sol\";"

/-- Right side of the diamond: B imports C. -/
def srcDiaB : String := "import \"./C.sol\";"

/-- Shared base of the diamond. -/
def srcDiaC : String := "contract C"

/-- Filesystem of the diamond: two siblings of the root both import C. -/
def fsDia : FS :=
  [("/t/R.sol", srcDiaR), ("/t/A.sol", srcDiaA),
   ("/t/B.sol", srcDiaB), ("/t/C.sol", srcDiaC)]

/-- Root with one unresolvable and one resolvable import. -/
def srcBrk : String := "import \"./M.sol\";\nimport \"./G.sol\";"

/-- Filesystem for the broken-import scenario: `/t/M.sol` does not exist. -/
def fsBrk : FS := [("/t/R.sol", srcBrk), ("/t/G.sol", "contract G")]

/-- The configuration of the classification example (templates root
`/p/templates`, library root under `/p/node_modules`). -/
def cfgP : CompilerCfg :=
  ⟨"/p/templates", "/p/node_modules/@openzeppelin/contracts"⟩

/-- A compiler stub that always succeeds with one contract under source key
`X`. -/
def solcOkX : List (String × String) → SolcOutput :=
  fun _ => ⟨none, [("X", [("XC", ⟨["a1"], "6080", "md"⟩)])]⟩

/-- A compiler stub that reports a warning and an error. -/
def solcErr : List (String × String) → SolcOutput :=
  fun _ => ⟨some [⟨"warning", "w1"⟩, ⟨"error", "boom"⟩], []⟩

/-- A compiler stub that reports only warnings with valid output under
source key `X`. -/
def solcWarn : List (String × String) → SolcOutput :=
  fun _ => ⟨some [⟨"warning", "w1"⟩, ⟨"warning", "w2"⟩],
    [("X", [("XC", ⟨["a2"], "9090", "mw"⟩)])]⟩

/-- Configuration with templates root `/app/contracts`. -/
def cfgApp : CompilerCfg :=
  ⟨"/app/contracts", "/app/node_modules/@openzeppelin/contracts"⟩

/-- One-file filesystem for the cache scenarios. -/
def fsApp : FS := [("/app/contracts/X.sol", "contract X")]

/-- Configuration for the basename-collision scenario. -/
def cfgC10 : CompilerCfg := ⟨"/c", "/oz"⟩

/-- Two entry files with the same basename in different directories. -/
def fsC10 : FS :=
  [("/c/a/Foo.sol", "contract F1"), ("/c/b/Foo.sol", "contract F2")]

/-- A single import-free root under the `/p/templates` root. -/
def fsOne : FS := [("/p/templates/A.sol", "contract A")]

/-- A compiler stub whose artifact bytecode echoes the source it was given
under key `Foo`, so artifacts compiled from different entry files differ. -/
def solcEcho : List (String × String) → SolcOutput := fun srcs =>
  ⟨none, [("Foo", [("F", ⟨[], (objFind? srcs "Foo").getD "", "m"⟩)])]⟩

/-! ## Helper lemmas about the resolver recursion -/

theorem processFile_zero (fs : FS) (cfg : CompilerCfg) (st : RState)
    (source filePath sourceKey : String) :
    processFile fs cfg 0 st source filePath sourceKey =
      if filePath ∈ st.processed then some st else none := rfl

theorem processFile_succ (fs : FS) (cfg : CompilerCfg) (fuel : Nat)
    (st : RState) (source filePath sourceKey : String) :
    processFile fs cfg (fuel + 1) st source filePath sourceKey =
      if filePath ∈ st.processed then some st
      else
        (scanImports source).foldl (importStep fs cfg fuel filePath)
          (some { st with
                  processed := filePath :: st.processed
                  sources := objInsert st.sources sourceKey source }) := rfl

theorem foldl_importStep_none (fs : FS) (cfg : CompilerCfg) (fuel : Nat)
    (filePath : String) (l : List String) :
    List.foldl (importStep fs cfg fuel filePath) none l = none := by
  induction l with
  | nil => rfl
  | cons ip rest ih => simpa [importStep] using ih

/-- Any reflexive transitive relation that tolerates marking a fresh path
processed (with a source insertion) and appending a warning is preserved
from the input state to the output state of `processFile`. -/
theorem processFile_rel (fs : FS) (cfg : CompilerCfg)
    (R : RState → RState → Prop)
    (hrefl : ∀ s, R s s)
    (htrans : ∀ {a b c}, R a b → R b c → R a c)
    (hmark : ∀ (st : RState) (p k src : String), p ∉ st.processed →
      R st { st with processed := p :: st.processed,
                     sources := objInsert st.sources k src })
    (hwarn : ∀ (st : RState) (w : String × String),
      R st { st with warnings := st.warnings ++ [w] }) :
    ∀ (fuel : Nat) (st : RState) (source filePath sourceKey : String)
      (st' : RState),
      processFile fs cfg fuel st source filePath sourceKey = some st' →
      R st st' := by
  intro fuel
  induction fuel with
  | zero =>
    intro st source filePath sourceKey st' h
    rw [processFile_zero] at h
    by_cases hp : filePath ∈ st.processed
    · simp [hp] at h; exact h ▸ hrefl st
    · simp [hp] at h
  | succ fuel ih =>
    intro st source filePath sourceKey st' h
    rw [processFile_succ] at h
    by_cases hp : filePath ∈ st.processed
    · simp [hp] at h; exact h ▸ hrefl st
    · simp only [hp, if_false] at h
      have hstep :
          ∀ (l : List String) (st0 st1 : RState),
            List.foldl (importStep fs cfg fuel filePath) (some st0) l =
              some st1 → R st0 st1 := by
        intro l
        induction l with
        | nil =>
          intro st0 st1 hfold
          simp at hfold
          exact hfold ▸ hrefl st0
        | cons ip rest ihl =>
          intro st0 st1 hfold
          rw [List.foldl_cons] at hfold
          cases hfi : findImports fs cfg ip (some filePath) with
          | error e =>
            rw [show importStep fs cfg fuel filePath (some st0) ip =
                some { st0 with warnings := st0.warnings ++ [(ip, filePath)] }
                by simp [importStep, hfi]] at hfold
            exact htrans (hwarn st0 (ip, filePath)) (ihl _ _ hfold)
          | ok contents =>
            rw [show importStep fs cfg fuel filePath (some st0) ip =
                processFile fs cfg fuel st0 contents
                  (resolveImportPath cfg ip (some filePath))
                  (importSourceKey cfg ip filePath)
                by simp [importStep, hfi]] at hfold
            cases hpf : processFile fs cfg fuel st0 contents
                (resolveImportPath cfg ip (some filePath))
                (importSourceKey cfg ip filePath) with
            | none =>
              rw [hpf, foldl_importStep_none] at hfold
              exact absurd hfold (by simp)
            | some st2 =>
              rw [hpf] at hfold
              exact htrans (ih st0 contents _ _ st2 hpf) (ihl _ _ hfold)
      exact htrans (hmark st filePath sourceKey source hp) (hstep _ _ _ h)

/-- The processed set only grows. -/
theorem processFile_processed_subset (fs : FS) (cfg : CompilerCfg)
    (fuel : Nat) (st : RState) (source filePath sourceKey : String)
    (st' : RState)
    (h : processFile fs cfg fuel st source filePath sourceKey = some st') :
    st.processed ⊆ st'.processed := by
  refine processFile_rel fs cfg (fun a b => a.processed ⊆ b.processed)
    (fun s => List.Subset.refl _) (fun hab hbc => hab.trans hbc)
    ?_ ?_ fuel st source filePath sourceKey st' h
  · intro st0 p k src _
    exact List.subset_cons_self p st0.processed
  · intro st0 w
    exact List.Subset.refl _

/-- Processed lists stay duplicate-free: a path is marked at most once. -/
theorem processFile_nodup (fs : FS) (cfg : CompilerCfg)
    (fuel : Nat) (st : RState) (source filePath sourceKey : String)
    (st' : RState)
    (h : processFile fs cfg fuel st source filePath sourceKey = some st')
    (hnd : st.processed.Nodup) : st'.processed.Nodup := by
  refine processFile_rel fs cfg
    (fun a b => a.processed.Nodup → b.processed.Nodup)
    (fun s hs => hs) (fun hab hbc ha => hbc (hab ha))
    ?_ ?_ fuel st source filePath sourceKey st' h hnd
  · intro st0 p k src hp hs
    exact List.Nodup.cons hp hs
  · intro st0 w hs
    exact hs

/-- In the update branch of `objInsert` the key list is unchanged. -/
theorem objInsert_map_fst_update {α : Type} (m : List (String × α))
    (k : String) (v : α) :
    (m.map (fun e => if e.1 = k then (k, v) else e)).map
        (fun e : String × α => e.1) =
      m.map (fun e : String × α => e.1) := by
  induction m with
  | nil => rfl
  | cons e rest ih =>
    by_cases he : e.1 = k
    · simp [he, ih]
    · simp [he, ih]

/-- `objInsert` never removes a key. -/
theorem objInsert_keys_mono {α : Type} (m : List (String × α))
    (k : String) (v : α) (k' : String)
    (h : k' ∈ m.map (fun e : String × α => e.1)) :
    k' ∈ (objInsert m k v).map (fun e : String × α => e.1) := by
  unfold objInsert
  by_cases hmem : k ∈ m.map (fun e : String × α => e.1)
  · rw [if_pos hmem, objInsert_map_fst_update]
    exact h
  · rw [if_neg hmem, List.map_append]
    exact List.mem_append_left _ h

/-- The inserted key is present afterwards. -/
theorem objInsert_mem_keys {α : Type} (m : List (String × α))
    (k : String) (v : α) :
    k ∈ (objInsert m k v).map (fun e : String × α => e.1) := by
  unfold objInsert
  by_cases hmem : k ∈ m.map (fun e : String × α => e.1)
  · rw [if_pos hmem, objInsert_map_fst_update]
    exact hmem
  · rw [if_neg hmem, List.map_append]
    exact List.mem_append_right _ (by simp)

/-- In the update branch, `find?` for the updated key returns the new
entry. -/
theorem find?_map_update {α : Type} (m : List (String × α))
    (k : String) (v : α) (hmem : k ∈ m.map (fun e : String × α => e.1)) :
    (m.map (fun e => if e.1 = k then (k, v) else e)).find?
        (fun e => e.1 == k) = some (k, v) := by
  induction m with
  | nil => simp at hmem
  | cons e rest ih =>
    by_cases he : e.1 = k
    · rw [List.map_cons, if_pos he]
      exact List.find?_cons_of_pos _ (by simp)
    · rw [List.map_cons, if_neg he, List.find?_cons_of_neg _ (by simp [he])]
      refine ih ?_
      rcases List.mem_map.mp hmem with ⟨x, hx, hxk⟩
      rcases List.mem_cons.mp hx with hx | hx
      · exact absurd (hx ▸ hxk) he
      · exact List.mem_map.mpr ⟨x, hx, hxk⟩

/-- In the append branch, `find?` for a fresh key returns the appended
entry. -/
theorem find?_append_fresh {α : Type} (m : List (String × α))
    (k : String) (v : α) (hmem : k ∉ m.map (fun e : String × α => e.1)) :
    (m ++ [(k, v)]).find? (fun e => e.1 == k) = some (k, v) := by
  induction m with
  | nil => exact List.find?_cons_of_pos _ (by simp)
  | cons e rest ih =>
    have he : ¬ e.1 = k := fun hek =>
      hmem (List.mem_map.mpr ⟨e, List.mem_cons_self e rest, hek⟩)
    rw [List.cons_append, List.find?_cons_of_neg _ (by simp [he])]
    refine ih (fun hk => hmem ?_)
    rcases List.mem_map.mp hk with ⟨x, hx, hxk⟩
    exact List.mem_map.mpr ⟨x, List.mem_cons_of_mem e hx, hxk⟩

/-- Reading back the key just written returns the written value. -/
theorem objFind?_objInsert_self {α : Type} (m : List (String × α))
    (k : String) (v : α) : objFind? (objInsert m k v) k = some v := by
  unfold objInsert objFind?
  by_cases hmem : k ∈ m.map (fun e : String × α => e.1)
  · rw [if_pos hmem, find?_map_update m k v hmem]
    rfl
  · rw [if_neg hmem, find?_append_fresh m k v hmem]
    rfl

/-- A key is unreadable exactly when it is not among the keys. -/
theorem objFind?_eq_none_iff {α : Type} (m : List (String × α))
    (k : String) :
    objFind? m k = none ↔ k ∉ m.map (fun e : String × α => e.1) := by
  unfold objFind?
  constructor
  · intro h hk
    rcases List.mem_map.mp hk with ⟨e, he, hek⟩
    cases hf : List.find? (fun e => e.1 == k) m with
    | none => exact (List.find?_eq_none.mp hf e he) (by simp [hek])
    | some x => rw [hf] at h; simp at h
  · intro h
    cases hf : List.find? (fun e => e.1 == k) m with
    | none => rfl
    | some x =>
      have hx := List.find?_some hf
      have hxm := List.mem_of_find?_eq_some hf
      exact (h (List.mem_map.mpr ⟨x, hxm, by simpa using hx⟩)).elim

/-- A successful `findImports` means the resolved path is a filesystem
path. -/
theorem findImports_ok_mem (fs : FS) (cfg : CompilerCfg) (ip : String)
    (b : Option String) (contents : String)
    (h : findImports fs cfg ip b = Except.ok contents) :
    resolveImportPath cfg ip b ∈ fs.map (fun e : String × String => e.1) := by
  unfold findImports at h
  cases hr : readFS fs (resolveImportPath cfg ip b) with
  | none => rw [hr] at h; exact absurd h (by simp)
  | some c =>
    unfold readFS at hr
    cases hf : List.find? (fun e => e.1 == resolveImportPath cfg ip b) fs with
    | none => rw [hf] at hr; exact absurd hr (by simp)
    | some e =>
      have he := List.mem_of_find?_eq_some hf
      have hk : e.1 = resolveImportPath cfg ip b := by
        simpa using List.find?_some hf
      exact hk ▸ List.mem_map.mpr ⟨e, he, rfl⟩

/-- Growing the processed list cannot increase the number of unprocessed
filesystem paths. -/
theorem unprocCount_le_of_subset (fs : FS) {l l' : List String}
    (h : l ⊆ l') : unprocCount fs l' ≤ unprocCount fs l := by
  unfold unprocCount
  refine List.Sublist.length_le (List.monotone_filter_right _ ?_)
  intro a ha
  simp only [decide_eq_true_eq] at ha ⊢
  exact fun hal => ha (h hal)

/-- Marking an unprocessed filesystem path strictly shrinks the measure. -/
theorem unprocCount_cons_lt (fs : FS) {q : String} {l : List String}
    (hq : q ∈ fs.map (fun e : String × String => e.1)) (hql : q ∉ l) :
    unprocCount fs (q :: l) < unprocCount fs l := by
  unfold unprocCount
  have hsub : List.Sublist
      ((fs.map (fun e => e.1)).dedup.filter (fun p => decide (p ∉ q :: l)))
      ((fs.map (fun e => e.1)).dedup.filter (fun p => decide (p ∉ l))) := by
    refine List.monotone_filter_right _ ?_
    intro a ha
    simp only [decide_eq_true_eq, List.mem_cons, not_or] at ha ⊢
    exact ha.2
  refine Nat.lt_of_le_of_ne hsub.length_le ?_
  intro heq
  have heql := hsub.eq_of_length heq
  have hqB : q ∈ (fs.map (fun e => e.1)).dedup.filter
      (fun p => decide (p ∉ l)) := by
    refine List.mem_filter.mpr ⟨List.mem_dedup.mpr hq, by simpa using hql⟩
  rw [← heql] at hqB
  have := (List.mem_filter.mp hqB).2
  simp at this

/-- The measure is bounded by the filesystem size. -/
theorem unprocCount_le_length (fs : FS) (l : List String) :
    unprocCount fs l ≤ fs.length := by
  unfold unprocCount
  calc ((fs.map (fun e => e.1)).dedup.filter
          (fun p => decide (p ∉ l))).length
      ≤ (fs.map (fun e => e.1)).dedup.length :=
        (List.filter_sublist _).length_le
    _ ≤ (fs.map (fun e => e.1)).length :=
        (List.dedup_sublist _).length_le
    _ = fs.length := List.length_map _ _

/-- Fuel sufficiency: the recursion succeeds whenever the fuel exceeds the
number of unprocessed filesystem paths (counting the current file). This is
the termination argument of the unbounded recursion in the source: every
level of nesting marks a fresh path, and only readable paths recurse. -/
theorem processFile_suff (fs : FS) (cfg : CompilerCfg) :
    ∀ (fuel : Nat) (st : RState) (source filePath sourceKey : String),
      (filePath ∈ st.processed ∨
        unprocCount fs (filePath :: st.processed) < fuel) →
      (processFile fs cfg fuel st source filePath sourceKey).isSome := by
  intro fuel
  induction fuel with
  | zero =>
    intro st source filePath sourceKey h
    rw [processFile_zero]
    rcases h with h | h
    · simp [h]
    · exact absurd h (Nat.not_lt_zero _)
  | succ fuel ih =>
    intro st source filePath sourceKey h
    rw [processFile_succ]
    by_cases hp : filePath ∈ st.processed
    · simp [hp]
    · rw [if_neg hp]
      have hcount : unprocCount fs (filePath :: st.processed) ≤ fuel := by
        rcases h with h | h
        · exact absurd h hp
        · exact Nat.lt_succ_iff.mp h
      have inner : ∀ (l : List String) (st0 : RState),
          unprocCount fs st0.processed ≤ fuel →
          (List.foldl (importStep fs cfg fuel filePath) (some st0) l).isSome := by
        intro l
        induction l with
        | nil =>
          intro st0 _
          simp
        | cons ip rest ihl =>
          intro st0 hc
          rw [List.foldl_cons]
          cases hfi : findImports fs cfg ip (some filePath) with
          | error e =>
            rw [show importStep fs cfg fuel filePath (some st0) ip =
                some { st0 with warnings := st0.warnings ++ [(ip, filePath)] }
                from by simp [importStep, hfi]]
            exact ihl _ (by simpa using hc)
          | ok contents =>
            rw [show importStep fs cfg fuel filePath (some st0) ip =
                processFile fs cfg fuel st0 contents
                  (resolveImportPath cfg ip (some filePath))
                  (importSourceKey cfg ip filePath)
                from by simp [importStep, hfi]]
            have hq := findImports_ok_mem fs cfg ip (some filePath) contents hfi
            have hsome : (processFile fs cfg fuel st0 contents
                (resolveImportPath cfg ip (some filePath))
                (importSourceKey cfg ip filePath)).isSome := by
              refine ih st0 contents _ _ ?_
              by_cases hqp : resolveImportPath cfg ip (some filePath) ∈
                  st0.processed
              · exact Or.inl hqp
              · exact Or.inr (lt_of_lt_of_le
                  (unprocCount_cons_lt fs hq hqp) hc)
            obtain ⟨st2, hst2⟩ := Option.isSome_iff_exists.mp hsome
            rw [hst2]
            refine ihl st2 ?_
            exact le_trans
              (unprocCount_le_of_subset fs
                (processFile_processed_subset fs cfg fuel st0 contents _ _
                  st2 hst2)) hc
      exact inner _ _ (by simpa using hcount)

/-- With fuel `fs.length + 1` the resolver never runs out. -/
theorem resolveAllImportsFuel_total (fs : FS) (cfg : CompilerCfg)
    (contractSource contractPath : String) :
    (resolveAllImportsFuel fs cfg (fs.length + 1)
      contractSource contractPath).isSome := by
  unfold resolveAllImportsFuel
  refine processFile_suff fs cfg _ _ _ _ _ (Or.inr ?_)
  exact Nat.lt_succ_of_le (unprocCount_le_length fs _)

/-- One more unit of fuel never changes a successful run. -/
theorem processFile_mono (fs : FS) (cfg : CompilerCfg) :
    ∀ (fuel : Nat) (st : RState) (source filePath sourceKey : String)
      (st' : RState),
      processFile fs cfg fuel st source filePath sourceKey = some st' →
      processFile fs cfg (fuel + 1) st source filePath sourceKey = some st' := by
  intro fuel
  induction fuel with
  | zero =>
    intro st source filePath sourceKey st' h
    rw [processFile_zero] at h
    rw [processFile_succ]
    by_cases hp : filePath ∈ st.processed
    · rw [if_pos hp] at h
      rw [if_pos hp]
      exact h
    · rw [if_neg hp] at h
      exact absurd h (by simp)
  | succ fuel ih =>
    intro st source filePath sourceKey st' h
    rw [processFile_succ] at h
    rw [processFile_succ]
    by_cases hp : filePath ∈ st.processed
    · rw [if_pos hp] at h
      rw [if_pos hp]
      exact h
    · rw [if_neg hp] at h
      rw [if_neg hp]
      have inner : ∀ (l : List String) (st0 : RState),
          List.foldl (importStep fs cfg fuel filePath) (some st0) l =
            some st' →
          List.foldl (importStep fs cfg (fuel + 1) filePath) (some st0) l =
            some st' := by
        intro l
        induction l with
        | nil =>
          intro st0 h0
          simpa using h0
        | cons ip rest ihl =>
          intro st0 h0
          rw [List.foldl_cons] at h0 ⊢
          cases hfi : findImports fs cfg ip (some filePath) with
          | error e =>
            rw [show importStep fs cfg fuel filePath (some st0) ip =
                some { st0 with warnings := st0.warnings ++ [(ip, filePath)] }
                from by simp [importStep, hfi]] at h0
            rw [show importStep fs cfg (fuel + 1) filePath (some st0) ip =
                some { st0 with warnings := st0.warnings ++ [(ip, filePath)] }
                from by simp [importStep, hfi]]
            exact ihl _ h0
          | ok contents =>
            rw [show importStep fs cfg fuel filePath (some st0) ip =
                processFile fs cfg fuel st0 contents
                  (resolveImportPath cfg ip (some filePath))
                  (importSourceKey cfg ip filePath)
                from by simp [importStep, hfi]] at h0
            rw [show importStep fs cfg (fuel + 1) filePath (some st0) ip =
                processFile fs cfg (fuel + 1) st0 contents
                  (resolveImportPath cfg ip (some filePath))
                  (importSourceKey cfg ip filePath)
                from by simp [importStep, hfi]]
            cases hpf : processFile fs cfg fuel st0 contents
                (resolveImportPath cfg ip (some filePath))
                (importSourceKey cfg ip filePath) with
            | none =>
              rw [hpf, foldl_importStep_none] at h0
              exact absurd h0 (by simp)
            | some st2 =>
              rw [hpf] at h0
              rw [ih st0 contents _ _ st2 hpf]
              exact ihl st2 h0
      exact inner _ _ h

/-- Extra fuel beyond a successful run never changes the result. -/
theorem processFile_fuel_ge (fs : FS) (cfg : CompilerCfg) {f1 f2 : Nat}
    (hle : f1 ≤ f2) (st : RState) (source filePath sourceKey : String)
    (st' : RState)
    (h : processFile fs cfg f1 st source filePath sourceKey = some st') :
    processFile fs cfg f2 st source filePath sourceKey = some st' := by
  induction f2, hle using Nat.le_induction with
  | base => exact h
  | succ n hn ihn => exact processFile_mono fs cfg n st source _ _ st' ihn

/-- Recorded source keys are never removed. -/
theorem processFile_keys_mono (fs : FS) (cfg : CompilerCfg)
    (fuel : Nat) (st : RState) (source filePath sourceKey : String)
    (st' : RState)
    (h : processFile fs cfg fuel st source filePath sourceKey = some st')
    (k : String) (hk : k ∈ st.sources.map (fun e : String × String => e.1)) :
    k ∈ st'.sources.map (fun e : String × String => e.1) := by
  refine processFile_rel fs cfg
    (fun a b => ∀ k : String,
      k ∈ a.sources.map (fun e : String × String => e.1) →
      k ∈ b.sources.map (fun e : String × String => e.1))
    (fun s k hk => hk) (fun hab hbc k hk => hbc k (hab k hk))
    ?_ ?_ fuel st source filePath sourceKey st' h k hk
  · intro st0 p key src _ k hk
    exact objInsert_keys_mono st0.sources key src k hk
  · intro st0 w k hk
    exact hk

/-- The import loop never removes a recorded source key. -/
theorem foldl_importStep_keys_mono (fs : FS) (cfg : CompilerCfg)
    (fuel : Nat) (filePath : String) :
    ∀ (l : List String) (st0 st' : RState),
      List.foldl (importStep fs cfg fuel filePath) (some st0) l = some st' →
      ∀ k : String, k ∈ st0.sources.map (fun e : String × String => e.1) →
        k ∈ st'.sources.map (fun e : String × String => e.1) := by
  intro l
  induction l with
  | nil =>
    intro st0 st' h k hk
    simp at h
    exact h ▸ hk
  | cons ip rest ihl =>
    intro st0 st' h k hk
    rw [List.foldl_cons] at h
    cases hfi : findImports fs cfg ip (some filePath) with
    | error e =>
      rw [show importStep fs cfg fuel filePath (some st0) ip =
          some { st0 with warnings := st0.warnings ++ [(ip, filePath)] }
          from by simp [importStep, hfi]] at h
      exact ihl _ st' h k hk
    | ok contents =>
      rw [show importStep fs cfg fuel filePath (some st0) ip =
          processFile fs cfg fuel st0 contents
            (resolveImportPath cfg ip (some filePath))
            (importSourceKey cfg ip filePath)
          from by simp [importStep, hfi]] at h
      cases hpf : processFile fs cfg fuel st0 contents
          (resolveImportPath cfg ip (some filePath))
          (importSourceKey cfg ip filePath) with
      | none =>
        rw [hpf, foldl_importStep_none] at h
        exact absurd h (by simp)
      | some st2 =>
        rw [hpf] at h
        exact ihl st2 st' h k
          (processFile_keys_mono fs cfg fuel st0 contents _ _ st2 hpf k hk)

/-- A successful resolver run records the root unit under the basename of
the root path with `.sol` stripped. -/
theorem resolveAllImportsFuel_root_key (fs : FS) (cfg : CompilerCfg)
    (fuel : Nat) (source contractPath : String) (st : RState)
    (h : resolveAllImportsFuel fs cfg fuel source contractPath = some st) :
    basenameExt contractPath ".sol" ∈
      st.sources.map (fun e : String × String => e.1) := by
  unfold resolveAllImportsFuel at h
  cases fuel with
  | zero =>
    rw [processFile_zero] at h
    simp at h
  | succ fuel =>
    rw [processFile_succ] at h
    rw [if_neg (by simp)] at h
    refine foldl_importStep_keys_mono fs cfg fuel contractPath _ _ st h _ ?_
    exact objInsert_mem_keys [] (basenameExt contractPath ".sol") source

/-! ## Path lemmas for the source-key derivation -/

theorem splitOnChar_cons_sep (sep : Char) (rest : List Char) :
    splitOnChar sep (sep :: rest) = [] :: splitOnChar sep rest := by
  conv_lhs => unfold splitOnChar
  rw [if_pos rfl]

theorem splitOnChar_cons_ne (sep c : Char) (rest : List Char)
    (g0 : List Char) (gs : List (List Char)) (hc : ¬ c = sep)
    (hsp : splitOnChar sep rest = g0 :: gs) :
    splitOnChar sep (c :: rest) = (c :: g0) :: gs := by
  unfold splitOnChar
  rw [if_neg hc, hsp]

theorem splitOnChar_ne_nil (sep : Char) (cs : List Char) :
    splitOnChar sep cs ≠ [] := by
  cases cs with
  | nil => simp [splitOnChar]
  | cons c rest =>
    by_cases hc : c = sep
    · subst hc
      rw [splitOnChar_cons_sep]
      simp
    · cases hsp : splitOnChar sep rest with
      | nil => exact absurd hsp (splitOnChar_ne_nil sep rest)
      | cons g0 gs =>
        rw [splitOnChar_cons_ne sep c rest g0 gs hc hsp]
        simp

/-- No split group contains the separator. -/
theorem splitOnChar_sep_not_mem (sep : Char) :
    ∀ (cs : List Char) (g : List Char), g ∈ splitOnChar sep cs → sep ∉ g := by
  intro cs
  induction cs with
  | nil =>
    intro g hg
    simp [splitOnChar] at hg
    simp [hg]
  | cons c rest ih =>
    intro g hg
    by_cases hc : c = sep
    · subst hc
      rw [splitOnChar_cons_sep] at hg
      rcases List.mem_cons.mp hg with hg | hg
      · simp [hg]
      · exact ih g hg
    · cases hsp : splitOnChar sep rest with
      | nil => exact absurd hsp (splitOnChar_ne_nil sep rest)
      | cons g0 gs =>
        rw [splitOnChar_cons_ne sep c rest g0 gs hc hsp] at hg
        rcases List.mem_cons.mp hg with hg | hg
        · subst hg
          intro hmem
          rcases List.mem_cons.mp hmem with hmem | hmem
          · exact hc hmem.symm
          · exact ih g0 (hsp ▸ List.mem_cons_self g0 gs) hmem
        · exact ih g (hsp ▸ List.mem_cons_of_mem g0 hg)

/-- Segments of any path string are nonempty and free of separators. -/
theorem segsOf_sep_free (s : String) (g : List Char) (hg : g ∈ segsOf s) :
    g ≠ [] ∧ '/' ∉ g := by
  unfold segsOf at hg
  have h1 := List.mem_filter.mp hg
  refine ⟨by simpa using h1.2, splitOnChar_sep_not_mem '/' s.data g h1.1⟩

/-- Splitting a separator-free group alone gives that group back. -/
theorem splitOnChar_of_not_mem (sep : Char) (g : List Char)
    (hg : sep ∉ g) : splitOnChar sep g = [g] := by
  induction g with
  | nil => rfl
  | cons c rest ih =>
    have hc : ¬ c = sep := fun h => hg (h ▸ List.mem_cons_self c rest)
    have hrest : sep ∉ rest := fun h => hg (List.mem_cons_of_mem c h)
    exact splitOnChar_cons_ne sep c rest rest [] hc (ih hrest)

/-- Splitting distributes over a separator-free group followed by a
separator. -/
theorem splitOnChar_group_sep (sep : Char) (g cs : List Char)
    (hg : sep ∉ g) :
    splitOnChar sep (g ++ sep :: cs) = g :: splitOnChar sep cs := by
  induction g with
  | nil =>
    rw [List.nil_append, splitOnChar_cons_sep]
  | cons c rest ih =>
    have hc : ¬ c = sep := fun h => hg (h ▸ List.mem_cons_self c rest)
    have hrest : sep ∉ rest := fun h => hg (List.mem_cons_of_mem c h)
    rw [List.cons_append]
    exact splitOnChar_cons_ne sep c _ rest (splitOnChar sep cs) hc (ih hrest)

/-- Splitting inverts joining for separator-free groups. -/
theorem splitOnChar_joinSegs (l : List (List Char))
    (hl : ∀ g ∈ l, '/' ∉ g) (hne : l ≠ []) :
    splitOnChar '/' (joinSegs l) = l := by
  induction l with
  | nil => exact absurd rfl hne
  | cons g rest ih =>
    cases rest with
    | nil =>
      exact splitOnChar_of_not_mem '/' g (hl g (List.mem_cons_self g []))
    | cons g2 rest2 =>
      rw [show joinSegs (g :: g2 :: rest2) = g ++ '/' :: joinSegs (g2 :: rest2)
          from rfl]
      rw [splitOnChar_group_sep '/' g _ (hl g (List.mem_cons_self g _))]
      rw [ih (fun x hx => hl x (List.mem_cons_of_mem g hx)) (by simp)]

/-- Taking segments inverts `joinAbs` for nonempty separator-free groups. -/
theorem segsOf_joinAbs (l : List (List Char))
    (hl : ∀ g ∈ l, g ≠ [] ∧ '/' ∉ g) : segsOf (joinAbs l) = l := by
  unfold segsOf joinAbs
  rw [show (String.mk ('/' :: joinSegs l)).data = '/' :: joinSegs l from rfl]
  rw [splitOnChar_cons_sep]
  cases l with
  | nil => rfl
  | cons g rest =>
    rw [splitOnChar_joinSegs (g :: rest) (fun x hx => (hl x hx).2) (by simp)]
    rw [show List.filter (fun g => decide (g ≠ ([] : List Char)))
        ([] :: g :: rest) =
        List.filter (fun g => decide (g ≠ ([] : List Char))) (g :: rest)
        from by simp]
    rw [List.filter_eq_self.mpr]
    intro a ha
    simpa using (hl a ha).1

/-- Resolving a specifier without dot segments just appends its segments. -/
theorem resolveSegs_no_dots (base : List (List Char)) (sp : String)
    (hsp : ∀ g ∈ segsOf sp, g ≠ ['.'] ∧ g ≠ ['.', '.']) :
    resolveSegs base sp = base ++ segsOf sp := by
  unfold resolveSegs
  have : ∀ (segs : List (List Char)) (acc : List (List Char)),
      (∀ g ∈ segs, g ≠ ['.'] ∧ g ≠ ['.', '.']) →
      segs.foldl
        (fun acc seg =>
          if seg = ['.'] then acc
          else if seg = ['.', '.'] then acc.dropLast
          else acc ++ [seg]) acc = acc ++ segs := by
    intro segs
    induction segs with
    | nil => intro acc _; simp
    | cons g rest ih =>
      intro acc hdots
      rw [List.foldl_cons]
      have h1 := hdots g (List.mem_cons_self g rest)
      rw [if_neg h1.1, if_neg h1.2]
      rw [ih (acc ++ [g]) (fun x hx => hdots x (List.mem_cons_of_mem g hx))]
      simp
  exact this (segsOf sp) base hsp

theorem dropCommon_append (l s : List (List Char)) :
    dropCommon l (l ++ s) = ([], s) := by
  induction l with
  | nil =>
    cases s with
    | nil => rfl
    | cons a tail => rfl
  | cons a tail ih =>
    rw [List.cons_append]
    unfold dropCommon
    rw [if_pos rfl]
    exact ih

/-- The path-relative key computation inverts specifier resolution: for a
relative specifier without dot segments, the path of the resolved file
relative to the base directory is the specifier again (up to segment
normalization). -/
theorem relativeStr_resolveStr (d sp : String)
    (hdots : ∀ g ∈ segsOf sp, g ≠ ['.'] ∧ g ≠ ['.', '.'])
    (habs : strStartsWith sp "/" = false) :
    relativeStr d (resolveStr d sp) = String.mk (joinSegs (segsOf sp)) := by
  unfold resolveStr
  rw [if_neg (by simp [habs])]
  rw [resolveSegs_no_dots (segsOf d) sp hdots]
  unfold relativeStr
  rw [segsOf_joinAbs (segsOf d ++ segsOf sp) (fun g hg => by
    rcases List.mem_append.mp hg with hg | hg
    · exact segsOf_sep_free d g hg
    · exact segsOf_sep_free sp g hg)]
  rw [dropCommon_append (segsOf d) (segsOf sp)]
  simp

theorem strStartsWith_append (p s : String) :
    strStartsWith (p ++ s) p = true := by
  unfold strStartsWith
  rw [List.isPrefixOf_iff_prefix, String.data_append]
  exact List.prefix_append p.data s.data

theorem strDrop_append (p s : String) : strDrop (p ++ s) p.length = s := by
  unfold strDrop
  rw [String.data_append, show p.length = p.data.length from rfl,
    List.drop_left]

/-- A relative specifier can never carry the library namespace prefix:
the two candidate prefixes disagree on the first character. -/
theorem startsWith_rel_not_oz (ip : String)
    (h : strStartsWith ip "./" = true ∨ strStartsWith ip "../" = true) :
    strStartsWith ip ozPfx = false := by
  have hozd : ozPfx.data =
      '@' :: ("openzeppelin/contracts/" : String).data := rfl
  by_contra hc
  rw [Bool.not_eq_false] at hc
  unfold strStartsWith at hc
  rw [List.isPrefixOf_iff_prefix] at hc
  obtain ⟨t2, ht2⟩ := hc
  rw [hozd, List.cons_append] at ht2
  rcases h with h | h
  · unfold strStartsWith at h
    rw [List.isPrefixOf_iff_prefix] at h
    obtain ⟨t, ht⟩ := h
    rw [show ("./" : String).data = ['.', '/'] from rfl] at ht
    rw [← ht] at ht2
    rw [show ((['.', '/'] : List Char) ++ t) = '.' :: '/' :: t from rfl]
      at ht2
    injection ht2 with h1 _
    exact absurd h1 (by decide)
  · unfold strStartsWith at h
    rw [List.isPrefixOf_iff_prefix] at h
    obtain ⟨t, ht⟩ := h
    rw [show ("../" : String).data = ['.', '.', '/'] from rfl] at ht
    rw [← ht] at ht2
    rw [show ((['.', '.', '/'] : List Char) ++ t) = '.' :: '.' :: '/' :: t
        from rfl] at ht2
    injection ht2 with h1 _
    exact absurd h1 (by decide)

/-! ## The claims -/

/-- Claim C1, amended. The claim as stated is refuted by the key-collision
counterexample below; what holds is: `resolveAllImports` terminates for
every filesystem, configuration and root (fuel `fs.length + 1` is never
exhausted, which is the termination of the unbounded recursion in the
source, for cyclic, diamond and self-referential graphs alike), and on the
two-file cycle where A imports B and B imports A it returns exactly the two
entries for A and B, once each. -/
theorem claim_C1_amended :
    (∀ (fs : FS) (cfg : CompilerCfg) (source contractPath : String),
      (resolveAllImportsFuel fs cfg (fs.length + 1)
        source contractPath).isSome) ∧
    resolveAllImports fsCyc cfgT srcCycA "/t/A.sol" =
      [("A", srcCycA), ("B.sol", srcCycB)] :=
  ⟨resolveAllImportsFuel_total, by decide⟩

/-- Claim C1, counterexample. The filesystem holds two distinct files, the
root `/t/A.sol` (source key: its basename `A`) and `/t/A`, reached from the
root through the bare import `A` and keyed by the specifier, also `A`. Both
files are read and processed, but the second write overwrites the first
entry, so the returned mapping has a single entry and the content of the
root file appears nowhere: the mapping does not contain every
transitively imported file exactly once. -/
theorem claim_C1_counterexample :
    readFS fsColl "/t/A.sol" = some srcColl ∧
    readFS fsColl "/t/A" = some "contract AImpl" ∧
    srcColl ≠ "contract AImpl" ∧
    resolveAllImports fsColl cfgT srcColl "/t/A.sol" =
      [("A", "contract AImpl")] := by
  decide

/-- Claim C4, amended. The claim as stated fails on the root unit (see the
counterexample); what holds: (1) a successful run records the root unit
under the basename of the root path with `.sol` stripped, not under its
path relative to the templates root; (2) an import carrying the library
namespace prefix with a normalized remainder is keyed by the prefix joined
with the resolved path of the file relative to the library root; (3) a
relative import that does not resolve under a `node_modules` copy of the
library is keyed by the resolved path relative to the templates root, with
backslashes turned into forward slashes; (4) a bare import is keyed by the
specifier verbatim. -/
theorem claim_C4_amended :
    (∀ (fs : FS) (cfg : CompilerCfg) (fuel : Nat)
      (source contractPath : String) (st : RState),
      resolveAllImportsFuel fs cfg fuel source contractPath = some st →
      basenameExt contractPath ".sol" ∈
        st.sources.map (fun e : String × String => e.1)) ∧
    (∀ (cfg : CompilerCfg) (suffix fp : String),
      (∀ g ∈ segsOf suffix, g ≠ ['.'] ∧ g ≠ ['.', '.']) →
      String.mk (joinSegs (segsOf suffix)) = suffix →
      strStartsWith suffix "/" = false →
      (importSourceKey cfg (ozPfx ++ suffix) fp) =
        ozPfx ++ relativeStr cfg.ozContractsDir
          (resolveImportPath cfg (ozPfx ++ suffix) (some fp))) ∧
    (∀ (cfg : CompilerCfg) (ip fp : String),
      (strStartsWith ip "./" = true ∨ strStartsWith ip "../" = true) →
      strIncludes (resolveStr (dirnameStr fp) ip) ozMagic = false →
      (importSourceKey cfg ip fp) =
        strMapSlash (relativeStr cfg.contractsDir
          (resolveImportPath cfg ip (some fp)))) ∧
    (∀ (cfg : CompilerCfg) (ip fp : String),
      strStartsWith ip ozPfx = false → strStartsWith ip "./" = false →
      strStartsWith ip "../" = false →
      (importSourceKey cfg ip fp) = ip) := by
  refine ⟨resolveAllImportsFuel_root_key, ?_, ?_, ?_⟩
  · intro cfg suffix fp hdots hnorm habs
    have hpfx := strStartsWith_append ozPfx suffix
    simp only [importSourceKey, resolveImportPath, hpfx, if_true]
    rw [strDrop_append ozPfx suffix]
    rw [relativeStr_resolveStr cfg.ozContractsDir suffix hdots habs, hnorm]
  · intro cfg ip fp hrel hinc
    have hoz := startsWith_rel_not_oz ip hrel
    rcases hrel with h | h <;>
      simp only [importSourceKey, resolveImportPath, hoz, h, hinc,
        Bool.false_eq_true, if_false, Bool.true_or, Bool.or_true, if_true]
  · intro cfg ip fp h1 h2 h3
    simp only [importSourceKey, h1, h2, h3, Bool.false_eq_true, if_false,
      Bool.or_self]

/-- Claim C4, counterexample. For the root unit the key is the basename of
the root path with the extension stripped, not the path relative to the
templates root: resolving an import-free root `/p/templates/A.sol` keys it
as `A`, while its path relative to the templates root is `A.sol`. -/
theorem claim_C4_counterexample :
    resolveAllImports fsOne cfgP "contract A" "/p/templates/A.sol" =
      [("A", "contract A")] ∧
    relativeStr cfgP.contractsDir "/p/templates/A.sol" = "A.sol" ∧
    ("A" : String) ≠ "A.sol" := by
  decide

/-- Claim C5. `resolveImportPath` classifies a specifier first-match-wins:
a specifier with the library namespace prefix is stripped of it and joined
with the library root; otherwise a specifier starting `./` or `../` is
joined with the directory of the importing file when that file is known and
with the templates root when not; any other specifier is joined with the
templates root. On the concrete examples: from `/p/templates/Root.sol`, a
prefixed specifier resolves under the library root while `./Z.sol` and
`W.sol` both resolve directly into `/p/templates`. -/
theorem claim_C5 :
    (∀ (cfg : CompilerCfg) (ip : String) (b : Option String),
      strStartsWith ip ozPfx = true →
      resolveImportPath cfg ip b =
        resolveStr cfg.ozContractsDir (strDrop ip ozPfx.length)) ∧
    (∀ (cfg : CompilerCfg) (ip fp : String),
      (strStartsWith ip "./" = true ∨ strStartsWith ip "../" = true) →
      resolveImportPath cfg ip (some fp) =
        resolveStr (dirnameStr fp) ip) ∧
    (∀ (cfg : CompilerCfg) (ip : String),
      (strStartsWith ip "./" = true ∨ strStartsWith ip "../" = true) →
      resolveImportPath cfg ip none = resolveStr cfg.contractsDir ip) ∧
    (∀ (cfg : CompilerCfg) (ip : String) (b : Option String),
      strStartsWith ip ozPfx = false → strStartsWith ip "./" = false →
      strStartsWith ip "../" = false →
      resolveImportPath cfg ip b = resolveStr cfg.contractsDir ip) ∧
    (resolveImportPath cfgP "@openzeppelin/contracts/x/Y.sol"
        (some "/p/templates/Root.sol") =
      "/p/node_modules/@openzeppelin/contracts/x/Y.sol" ∧
    strStartsWith "/p/node_modules/@openzeppelin/contracts/x/Y.sol"
        cfgP.ozContractsDir = true ∧
    resolveImportPath cfgP "./Z.sol" (some "/p/templates/Root.sol") =
      "/p/templates/Z.sol" ∧
    resolveImportPath cfgP "W.sol" (some "/p/templates/Root.sol") =
      "/p/templates/W.sol") := by
  refine ⟨?_, ?_, ?_, ?_, by decide⟩
  · intro cfg ip b h
    simp only [resolveImportPath, h, if_true]
  · intro cfg ip fp h
    have hoz := startsWith_rel_not_oz ip h
    rcases h with h | h <;>
      simp only [resolveImportPath, hoz, h, Bool.false_eq_true, if_false,
        Bool.true_or, Bool.or_true, if_true]
  · intro cfg ip h
    have hoz := startsWith_rel_not_oz ip h
    rcases h with h | h <;>
      simp only [resolveImportPath, hoz, h, Bool.false_eq_true, if_false,
        Bool.true_or, Bool.or_true, if_true]
  · intro cfg ip b h1 h2 h3
    simp only [resolveImportPath, h1, h2, h3, Bool.false_eq_true, if_false,
      Bool.or_self]

/-- Claim C5, witness: the general branch equations applied at the three
example specifiers. -/
theorem claim_C5_witness :
    resolveImportPath cfgP "@openzeppelin/contracts/x/Y.sol"
        (some "/p/templates/Root.sol") =
      resolveStr cfgP.ozContractsDir
        (strDrop "@openzeppelin/contracts/x/Y.sol" ozPfx.length) ∧
    resolveImportPath cfgP "./Z.sol" (some "/p/templates/Root.sol") =
      resolveStr (dirnameStr "/p/templates/Root.sol") "./Z.sol" ∧
    resolveImportPath cfgP "W.sol" (some "/p/templates/Root.sol") =
      resolveStr cfgP.contractsDir "W.sol" :=
  ⟨claim_C5.1 cfgP "@openzeppelin/contracts/x/Y.sol"
      (some "/p/templates/Root.sol") (by decide),
   claim_C5.2.1 cfgP "./Z.sol" "/p/templates/Root.sol" (Or.inl (by decide)),
   claim_C5.2.2.2.1 cfgP "W.sol" (some "/p/templates/Root.sol")
      (by decide) (by decide) (by decide)⟩

/-- Claim C4 (amended), witness: the key derivation rules applied at
concrete inputs — the root of the one-file run, a prefixed library import,
a relative import and a bare import. -/
theorem claim_C4_amended_witness :
    basenameExt "/p/templates/A.sol" ".sol" ∈
      ([("A", "contract A")] : List (String × String)).map
        (fun e : String × String => e.1) ∧
    (importSourceKey cfgP (ozPfx ++ "access/Ownable.sol")
        "/p/templates/E.sol") =
      ozPfx ++ relativeStr cfgP.ozContractsDir
        (resolveImportPath cfgP (ozPfx ++ "access/Ownable.sol")
          (some "/p/templates/E.sol")) ∧
    (importSourceKey cfgP "./Z.sol" "/p/templates/Root.sol") =
      strMapSlash (relativeStr cfgP.contractsDir
        (resolveImportPath cfgP "./Z.sol" (some "/p/templates/Root.sol"))) ∧
    (importSourceKey cfgP "W.sol" "/p/templates/Root.sol") = "W.sol" :=
  ⟨claim_C4_amended.1 fsOne cfgP 2 "contract A" "/p/templates/A.sol"
      ⟨[("A", "contract A")], ["/p/templates/A.sol"], []⟩ (by decide),
   claim_C4_amended.2.1 cfgP "access/Ownable.sol" "/p/templates/E.sol"
      (by decide) (by decide) (by decide),
   claim_C4_amended.2.2.1 cfgP "./Z.sol" "/p/templates/Root.sol"
      (Or.inl (by decide)) (by decide),
   claim_C4_amended.2.2.2 cfgP "W.sol" "/p/templates/Root.sol"
      (by decide) (by decide) (by decide)⟩

/-- Claim C7. An import that fails to resolve is caught at its level: the
loop step turns the failure into an appended warning naming the specifier
and the referencing file and the traversal continues with the
remaining imports and an otherwise unchanged state; concretely, a root importing a
missing `./M.sol` and an existing `./G.sol` still resolves `G.sol`,
finishing with the one warning and without aborting. -/
theorem claim_C7 :
    (∀ (fs : FS) (cfg : CompilerCfg) (fuel : Nat) (st : RState)
      (ip : String) (rest : List String) (filePath e : String),
      findImports fs cfg ip (some filePath) = Except.error e →
      List.foldl (importStep fs cfg fuel filePath) (some st) (ip :: rest) =
        List.foldl (importStep fs cfg fuel filePath)
          (some { st with warnings := st.warnings ++ [(ip, filePath)] })
          rest) ∧
    resolveAllImportsFuel fsBrk cfgT 3 srcBrk "/t/R.sol" =
      some ⟨[("R", srcBrk), ("G.sol", "contract G")],
        ["/t/G.sol", "/t/R.sol"], [("./M.sol", "/t/R.sol")]⟩ := by
  constructor
  · intro fs cfg fuel st ip rest filePath e hfi
    rw [List.foldl_cons]
    congr 1
    simp [importStep, hfi]
  · decide

/-- Claim C7, witness: the skip-and-continue equation applied to the
concrete broken import of the fixture. -/
theorem claim_C7_witness :
    findImports fsBrk cfgT "./M.sol" (some "/t/R.sol") =
      Except.error "Import not found: ./M.sol" ∧
    List.foldl (importStep fsBrk cfgT 2 "/t/R.sol")
        (some ⟨[("R", srcBrk)], ["/t/R.sol"], []⟩)
        ["./M.sol", "./G.sol"] =
      List.foldl (importStep fsBrk cfgT 2 "/t/R.sol")
        (some ⟨[("R", srcBrk)], ["/t/R.sol"], [("./M.sol", "/t/R.sol")]⟩)
        ["./G.sol"] :=
  ⟨by decide,
   claim_C7.1 fsBrk cfgT 2 ⟨[("R", srcBrk)], ["/t/R.sol"], []⟩ "./M.sol"
     ["./G.sol"] "/t/R.sol" "Import not found: ./M.sol" (by decide)⟩

/-- Claim C8. Deduplication is keyed by resolved absolute path: in every
run the processed list never acquires a duplicate, so no file is read and
recorded twice; on the diamond fixture, where two siblings of the root
both import `./C.sol`, the result carries exactly one entry for that shared
file. -/
theorem claim_C8 :
    (∀ (fs : FS) (cfg : CompilerCfg) (fuel : Nat)
      (source contractPath : String) (st : RState),
      resolveAllImportsFuel fs cfg fuel source contractPath = some st →
      st.processed.Nodup) ∧
    resolveAllImports fsDia cfgT srcDiaR "/t/R.sol" =
      [("R", srcDiaR), ("A.sol", srcDiaA), ("C.sol", srcDiaC),
        ("B.sol", srcDiaB)] ∧
    (resolveAllImports fsDia cfgT srcDiaR "/t/R.sol").countP
      (fun e => e.1 == "C.sol") = 1 := by
  refine ⟨?_, by decide, by decide⟩
  intro fs cfg fuel source contractPath st h
  unfold resolveAllImportsFuel at h
  exact processFile_nodup fs cfg fuel ⟨[], [], []⟩ source contractPath _ st h
    List.nodup_nil

/-- Claim C8, witness: the no-duplicate-processing invariant applied to the
diamond run. -/
theorem claim_C8_witness :
    resolveAllImportsFuel fsDia cfgT 5 srcDiaR "/t/R.sol" =
      some ⟨[("R", srcDiaR), ("A.sol", srcDiaA), ("C.sol", srcDiaC),
          ("B.sol", srcDiaB)],
        ["/t/B.sol", "/t/C.sol", "/t/A.sol", "/t/R.sol"], []⟩ ∧
    (["/t/B.sol", "/t/C.sol", "/t/A.sol", "/t/R.sol"] :
      List String).Nodup :=
  ⟨by decide,
   claim_C8.1 fsDia cfgT 5 srcDiaR "/t/R.sol"
     ⟨[("R", srcDiaR), ("A.sol", srcDiaA), ("C.sol", srcDiaC),
        ("B.sol", srcDiaB)],
      ["/t/B.sol", "/t/C.sol", "/t/A.sol", "/t/R.sol"], []⟩ (by decide)⟩

/-- Claim C9. Resolution is deterministic: the embedding is a pure function
of the filesystem, configuration, root source and root path, and any two
runs given sufficient fuel (at least `fs.length + 1`, which the recursion
never exhausts) return the same successful state — in particular the same
key-to-content mapping with the same keys and the same contents. -/
theorem claim_C9 (fs : FS) (cfg : CompilerCfg)
    (source contractPath : String) (f1 f2 : Nat)
    (h1 : fs.length + 1 ≤ f1) (h2 : fs.length + 1 ≤ f2) :
    resolveAllImportsFuel fs cfg f1 source contractPath =
      resolveAllImportsFuel fs cfg f2 source contractPath ∧
    (resolveAllImportsFuel fs cfg f1 source contractPath).isSome := by
  obtain ⟨st, hst⟩ := Option.isSome_iff_exists.mp
    (resolveAllImportsFuel_total fs cfg source contractPath)
  unfold resolveAllImportsFuel at hst ⊢
  have e1 := processFile_fuel_ge fs cfg h1 ⟨[], [], []⟩ source contractPath
    (basenameExt contractPath ".sol") st hst
  have e2 := processFile_fuel_ge fs cfg h2 ⟨[], [], []⟩ source contractPath
    (basenameExt contractPath ".sol") st hst
  rw [e1, e2]
  simp

/-- Claim C9, witness: two runs of the cycle fixture at different
sufficient fuels agree and succeed. -/
theorem claim_C9_witness :
    resolveAllImportsFuel fsCyc cfgT 3 srcCycA "/t/A.sol" =
      resolveAllImportsFuel fsCyc cfgT 50 srcCycA "/t/A.sol" ∧
    (resolveAllImportsFuel fsCyc cfgT 3 srcCycA "/t/A.sol").isSome :=
  claim_C9 fsCyc cfgT srcCycA "/t/A.sol" 3 50 (by decide) (by decide)

/-- Claim C2. When the name is uncached, the entry file is readable and the
invoked compiler reports at least one severity-`error` diagnostic,
`getContract` fails with `CompilationError` carrying the severity-`error`
diagnostics of the response, performs exactly one compiler invocation, and
returns the cache unchanged: the name is absent from `getCacheKeys()`
afterwards, and a subsequent call on the returned cache reaches the
compiler again (one further invocation) instead of returning a cached
value. -/
theorem claim_C2 (fs : FS) (cfg : CompilerCfg)
    (solc : List (String × String) → SolcOutput) (cache : Cache)
    (name source : String) (errs : List Diagnostic)
    (hmiss : objFind? cache (cacheKeyOf cfg name) = none)
    (hread : readFS fs (resolveStr cfg.contractsDir (name ++ ".sol")) =
      some source)
    (herrs : (solc (resolveAllImports fs cfg source
        (resolveStr cfg.contractsDir (name ++ ".sol")))).errors =
      some errs)
    (hfatal : errs.filter (fun d => d.severity == "error") ≠ []) :
    getContract fs cfg solc cache name =
      (Except.error (CompileFailure.compilationErrors
        (errs.filter (fun d => d.severity == "error"))), cache, 1) ∧
    cacheKeyOf cfg name ∉ getCacheKeys cache ∧
    (getContract fs cfg solc
      ((getContract fs cfg solc cache name).2.1) name).2.2 = 1 := by
  have hkey : basenameExt (resolveStr cfg.contractsDir (name ++ ".sol"))
      ".sol" = cacheKeyOf cfg name := rfl
  have hmain : getContract fs cfg solc cache name =
      (Except.error (CompileFailure.compilationErrors
        (errs.filter (fun d => d.severity == "error"))), cache, 1) := by
    simp only [getContract, compileContract, hkey, hmiss, hread, herrs]
    rw [if_pos hfatal]
  refine ⟨hmain, ?_, ?_⟩
  · exact (objFind?_eq_none_iff cache (cacheKeyOf cfg name)).mp hmiss
  · rw [hmain]
    show (getContract fs cfg solc cache name).2.2 = 1
    rw [hmain]

/-- Claim C2, witness: a compiler stub answering one warning and one error
on the one-file fixture. -/
theorem claim_C2_witness :
    getContract fsApp cfgApp solcErr [] "X" =
      (Except.error (CompileFailure.compilationErrors
        [⟨"error", "boom"⟩]), [], 1) ∧
    cacheKeyOf cfgApp "X" ∉ getCacheKeys ([] : Cache) :=
  ⟨(claim_C2 fsApp cfgApp solcErr [] "X" "contract X"
      [⟨"warning", "w1"⟩, ⟨"error", "boom"⟩] (by decide) (by decide)
      (by decide) (by decide)).1,
   (claim_C2 fsApp cfgApp solcErr [] "X" "contract X"
      [⟨"warning", "w1"⟩, ⟨"error", "boom"⟩] (by decide) (by decide)
      (by decide) (by decide)).2.1⟩

/-- Claim C3. A cached name is answered immediately: the result, for every
filesystem, is the cached artifact with the cache untouched and zero
compiler invocations — so no file read and no compiler invocation can have
taken place. Starting from an empty cache, a successful call performs
exactly one invocation, and the follow-up call on the resulting cache
returns the same artifact with zero further invocations: two sequential
calls compile exactly once. -/
theorem claim_C3 :
    (∀ (fs : FS) (cfg : CompilerCfg)
      (solc : List (String × String) → SolcOutput) (cache : Cache)
      (name : String) (c : CompiledContract),
      objFind? cache (cacheKeyOf cfg name) = some c →
      getContract fs cfg solc cache name = (Except.ok c, cache, 0)) ∧
    (∀ (fs : FS) (cfg : CompilerCfg)
      (solc : List (String × String) → SolcOutput) (name : String)
      (a : CompiledContract) (c1 : Cache) (n1 : Nat),
      getContract fs cfg solc [] name = (Except.ok a, c1, n1) →
      n1 = 1 ∧
      getContract fs cfg solc c1 name = (Except.ok a, c1, 0)) := by
  have hit : ∀ (fs : FS) (cfg : CompilerCfg)
      (solc : List (String × String) → SolcOutput) (cache : Cache)
      (name : String) (c : CompiledContract),
      objFind? cache (cacheKeyOf cfg name) = some c →
      getContract fs cfg solc cache name = (Except.ok c, cache, 0) := by
    intro fs cfg solc cache name c h
    have hkey : basenameExt (resolveStr cfg.contractsDir (name ++ ".sol"))
        ".sol" = cacheKeyOf cfg name := rfl
    simp only [getContract, compileContract, hkey, h]
  refine ⟨hit, ?_⟩
  intro fs cfg solc name a c1 n1 h
  have hkey : basenameExt (resolveStr cfg.contractsDir (name ++ ".sol"))
      ".sol" = cacheKeyOf cfg name := rfl
  simp only [getContract, compileContract, hkey] at h
  simp only [show objFind? ([] : Cache) (cacheKeyOf cfg name) = none
    from rfl] at h
  cases hread : readFS fs (resolveStr cfg.contractsDir (name ++ ".sol")) with
  | none =>
    simp only [hread] at h
    simp at h
  | some source =>
    simp only [hread] at h
    by_cases hf : (match (solc (resolveAllImports fs cfg source
        (resolveStr cfg.contractsDir (name ++ ".sol")))).errors with
      | some errs => errs.filter (fun d => d.severity == "error")
      | none => []) ≠ []
    · rw [if_pos hf] at h
      simp at h
    · rw [if_neg hf] at h
      cases hoc : objFind? (solc (resolveAllImports fs cfg source
          (resolveStr cfg.contractsDir (name ++ ".sol")))).contracts
          (cacheKeyOf cfg name) with
      | none =>
        rw [hoc] at h
        simp at h
      | some contracts =>
        rw [hoc] at h
        cases contracts with
        | nil => simp at h
        | cons p rest =>
          obtain ⟨k0, c0⟩ := p
          simp only [Prod.mk.injEq] at h
          obtain ⟨hres, hc1, hn1⟩ := h
          have ha : a = (⟨c0.bytecodeObject, c0.abi, c0.metadata⟩ :
              CompiledContract) := by
            injection hres with h'
            exact h'.symm
          refine ⟨hn1.symm, ?_⟩
          rw [← hc1]
          refine hit fs cfg solc _ name a ?_
          rw [ha]
          exact objFind?_objInsert_self [] (cacheKeyOf cfg name) _

/-- Claim C3, witness: the cache-hit equation and the compile-once property
on the one-file fixture. -/
theorem claim_C3_witness :
    getContract fsApp cfgApp solcOkX
        [("X", ⟨"6080", ["a1"], "md"⟩)] "X" =
      (Except.ok ⟨"6080", ["a1"], "md"⟩,
        [("X", ⟨"6080", ["a1"], "md"⟩)], 0) ∧
    (1 = 1 ∧
      getContract fsApp cfgApp solcOkX
          [("X", ⟨"6080", ["a1"], "md"⟩)] "X" =
        (Except.ok ⟨"6080", ["a1"], "md"⟩,
          [("X", ⟨"6080", ["a1"], "md"⟩)], 0)) :=
  ⟨claim_C3.1 fsApp cfgApp solcOkX [("X", ⟨"6080", ["a1"], "md"⟩)] "X"
      ⟨"6080", ["a1"], "md"⟩ (by decide),
   claim_C3.2 fsApp cfgApp solcOkX "X" ⟨"6080", ["a1"], "md"⟩
      [("X", ⟨"6080", ["a1"], "md"⟩)] 1 (by decide)⟩

/-- Claim C6. A compiler response without severity-`error` diagnostics
(warnings alone, or no diagnostics) together with a contract object for the
entry unit makes `getContract` succeed: it returns the extracted artifact
and stores it in the cache, whose keys then include the contract name. -/
theorem claim_C6 (fs : FS) (cfg : CompilerCfg)
    (solc : List (String × String) → SolcOutput) (cache : Cache)
    (name source k0 : String) (c0 : SolcContract)
    (rest : List (String × SolcContract))
    (hmiss : objFind? cache (cacheKeyOf cfg name) = none)
    (hread : readFS fs (resolveStr cfg.contractsDir (name ++ ".sol")) =
      some source)
    (hnofatal : (match (solc (resolveAllImports fs cfg source
        (resolveStr cfg.contractsDir (name ++ ".sol")))).errors with
      | some errs => errs.filter (fun d => d.severity == "error")
      | none => []) = [])
    (hcontracts : objFind? (solc (resolveAllImports fs cfg source
        (resolveStr cfg.contractsDir (name ++ ".sol")))).contracts
        (cacheKeyOf cfg name) = some ((k0, c0) :: rest)) :
    getContract fs cfg solc cache name =
      (Except.ok ⟨c0.bytecodeObject, c0.abi, c0.metadata⟩,
        objInsert cache (cacheKeyOf cfg name)
          ⟨c0.bytecodeObject, c0.abi, c0.metadata⟩, 1) ∧
    cacheKeyOf cfg name ∈ getCacheKeys (objInsert cache
      (cacheKeyOf cfg name) ⟨c0.bytecodeObject, c0.abi, c0.metadata⟩) := by
  have hkey : basenameExt (resolveStr cfg.contractsDir (name ++ ".sol"))
      ".sol" = cacheKeyOf cfg name := rfl
  constructor
  · simp only [getContract, compileContract, hkey, hmiss, hread]
    rw [hnofatal, if_neg (by simp), hcontracts]
  · exact objInsert_mem_keys cache (cacheKeyOf cfg name) _

/-- Claim C6, witness: a warnings-only compiler stub on the one-file
fixture succeeds and caches. -/
theorem claim_C6_witness :
    getContract fsApp cfgApp solcWarn [] "X" =
      (Except.ok ⟨"9090", ["a2"], "mw"⟩,
        objInsert [] (cacheKeyOf cfgApp "X") ⟨"9090", ["a2"], "mw"⟩, 1) ∧
    cacheKeyOf cfgApp "X" ∈ getCacheKeys (objInsert []
      (cacheKeyOf cfgApp "X") ⟨"9090", ["a2"], "mw"⟩) :=
  claim_C6 fsApp cfgApp solcWarn [] "X" "contract X" "XC"
    ⟨["a2"], "9090", "mw"⟩ [] (by decide) (by decide) (by decide)
    (by decide)

/-- Claim C10. The cache key of `getContract name` is the basename of the
entry path `{name}.sol` with the extension stripped, never the full
requested name: no cache key contains a path separator, the distinct names
`a/Foo` and `b/Foo` share the cache key `Foo`, and concretely the second of
two such calls is a pure cache hit that returns the artifact compiled for
the first name with zero compiler invocations. -/
theorem claim_C10 :
    (∀ (cfg : CompilerCfg) (name : String),
      ('/' : Char) ∉ (cacheKeyOf cfg name).data) ∧
    cacheKeyOf cfgC10 "a/Foo" = "Foo" ∧
    cacheKeyOf cfgC10 "b/Foo" = "Foo" ∧
    getContract fsC10 cfgC10 solcEcho [] "a/Foo" =
      (Except.ok ⟨"contract F1", [], "m"⟩,
        [("Foo", ⟨"contract F1", [], "m"⟩)], 1) ∧
    getContract fsC10 cfgC10 solcEcho
        [("Foo", ⟨"contract F1", [], "m"⟩)] "b/Foo" =
      (Except.ok ⟨"contract F1", [], "m"⟩,
        [("Foo", ⟨"contract F1", [], "m"⟩)], 0) := by
  refine ⟨?_, by decide, by decide, by decide, by decide⟩
  intro cfg name
  unfold cacheKeyOf basenameExt
  cases hG : (segsOf (resolveStr cfg.contractsDir
      (name ++ ".sol"))).getLast? with
  | none =>
    simp only [Option.getD_none]
    rw [if_neg (by decide)]
    simp
  | some g =>
    have hg : ('/' : Char) ∉ g :=
      (segsOf_sep_free _ g (by
        rcases List.mem_getLast?_eq_getLast
          (show g ∈ (segsOf (resolveStr cfg.contractsDir
            (name ++ ".sol"))).getLast? from hG) with ⟨hne, heq⟩
        rw [heq]
        exact List.getLast_mem hne)).2
    simp only [Option.getD_some]
    by_cases hcond : g ≠ (".sol" : String).data ∧
        (".sol" : String).data.isSuffixOf g = true
    · rw [if_pos hcond]
      intro hmem
      exact hg (List.take_subset _ g hmem)
    · rw [if_neg hcond]
      exact hg

end McpCompiler
